import Mathlib

/-!
Verification development for the `aiomanhole` program
(`src/aiomanhole/__init__.py`).

The embedding models, from the source:
* `StatefulCommandCompiler` — the accumulator that buffers raw input bytes
  (`BytesIO`) until the external parse-and-compile capability (the
  `codeop.CommandCompiler` superclass call) recognises a complete command.
  Bytes are `List Nat`; text (after `bytes.decode('utf8')`) is a list of
  code points.  The external capability is a parameter
  `P : CodeParser α`: `Except.error ()` models a raised `SyntaxError`,
  `Except.ok none` a "command incomplete" answer, `Except.ok (some u)` a
  compiled command unit.
* the per-connection session loop of `InteractiveInterpreter.__call__`,
  `handle_one_command`, `read_command` and `run_command`;
* `InteractiveInterpreter.send_output`;
* the `_real_exec` execution strategies (inline vs threaded-with-timeout);
* `InterpreterFactory.__call__`'s namespace sharing (a small object store
  tracks mapping identity: Python dicts are association lists of
  (identifier, value-object-id) held at heap addresses);
* the listener-configuration logic of `start_manhole`.
-/

deriving instance DecidableEq for Except

namespace Aiomanhole

/-- Strict UTF-8 decoding of a byte string into its list of code points,
modelling Python `bytes.decode('utf8')`; `none` models a raised
`UnicodeDecodeError`.  Rejects stray continuation bytes, truncated and
overlong sequences, surrogates (U+D800–U+DFFF) and code points above
U+10FFFF, as CPython's strict decoder does. -/
def utf8DecodeOne (b : Nat) (bs : List Nat) : Option (Nat × List Nat) :=
  if b < 128 then
    some (b, bs)
  else if b < 194 then
    none
  else if b < 224 then
    match bs with
    | b1 :: bs2 =>
      if 128 ≤ b1 ∧ b1 < 192 then
        some ((b - 192) * 64 + (b1 - 128), bs2)
      else none
    | [] => none
  else if b < 240 then
    match bs with
    | b1 :: b2 :: bs3 =>
      if (128 ≤ b1 ∧ b1 < 192) ∧ (128 ≤ b2 ∧ b2 < 192)
          ∧ (b = 224 → 160 ≤ b1) ∧ (b = 237 → b1 < 160) then
        some ((b - 224) * 4096 + (b1 - 128) * 64 + (b2 - 128), bs3)
      else none
    | _ => none
  else if b < 245 then
    match bs with
    | b1 :: b2 :: b3 :: bs4 =>
      if (128 ≤ b1 ∧ b1 < 192) ∧ (128 ≤ b2 ∧ b2 < 192) ∧ (128 ≤ b3 ∧ b3 < 192)
          ∧ (b = 240 → 144 ≤ b1) ∧ (b = 244 → b1 < 144) then
        some ((b - 240) * 262144 + (b1 - 128) * 4096 + (b2 - 128) * 64 + (b3 - 128), bs4)
      else none
    | _ => none
  else none

/-- A decoded leading sequence never lengthens the remaining input. -/
theorem utf8DecodeOne_length {b : Nat} {bs : List Nat} {c : Nat} {rest : List Nat}
    (h : utf8DecodeOne b bs = some (c, rest)) : rest.length ≤ bs.length := by
  unfold utf8DecodeOne at h
  repeat' split at h
  all_goals
    first
      | (simp only [Option.some.injEq, Prod.mk.injEq] at h
         obtain ⟨-, rfl⟩ := h
         try simp only [List.length_cons]
         omega)
      | simp at h

/-- Decoding loop: each step decodes one leading sequence via
`utf8DecodeOne` and recurses on the remaining bytes.  The recursion is
driven by a fuel argument so that it is structural; since every step
consumes at least the head byte, a fuel of the input's length always
suffices (`utf8DecodeFuel_irrel`). -/
def utf8DecodeFuel : Nat → List Nat → Option (List Nat)
  | _, [] => some []
  | 0, _ :: _ => none
  | fuel + 1, b :: bs =>
    match utf8DecodeOne b bs with
    | none => none
    | some (c, rest) => (utf8DecodeFuel fuel rest).map (fun r => c :: r)

/-- Any sufficient fuel computes the same decoding. -/
theorem utf8DecodeFuel_irrel :
    ∀ f1 : Nat, ∀ f2 : Nat, ∀ bs : List Nat, bs.length ≤ f1 → bs.length ≤ f2 →
      utf8DecodeFuel f1 bs = utf8DecodeFuel f2 bs := by
  intro f1
  induction f1 with
  | zero =>
    intro f2 bs h1 _
    cases bs with
    | nil => cases f2 <;> rfl
    | cons b bs => simp at h1
  | succ f1 ih =>
    intro f2 bs h1 h2
    cases bs with
    | nil => cases f2 <;> rfl
    | cons b bs =>
      cases f2 with
      | zero => simp at h2
      | succ f2 =>
        simp only [utf8DecodeFuel]
        cases hone : utf8DecodeOne b bs with
        | none => rfl
        | some p =>
          obtain ⟨c, rest⟩ := p
          have hlen := utf8DecodeOne_length hone
          simp only [List.length_cons] at h1 h2
          show (utf8DecodeFuel f1 rest).map (fun r => c :: r)
            = (utf8DecodeFuel f2 rest).map (fun r => c :: r)
          rw [ih f2 rest (by omega) (by omega)]

/-- Strict decoding of a whole byte string, fuelled by its own length. -/
def utf8Decode? (bs : List Nat) : Option (List Nat) :=
  utf8DecodeFuel bs.length bs

/-- Unfolding step of `utf8Decode?` when the leading sequence decodes. -/
theorem utf8Decode_cons_some {b : Nat} {bs : List Nat} {c : Nat} {rest : List Nat}
    (h : utf8DecodeOne b bs = some (c, rest)) :
    utf8Decode? (b :: bs) = (utf8Decode? rest).map (fun r => c :: r) := by
  have hlen := utf8DecodeOne_length h
  show utf8DecodeFuel (b :: bs).length (b :: bs) = _
  simp only [List.length_cons, utf8DecodeFuel, h]
  rw [utf8DecodeFuel_irrel bs.length rest.length rest hlen (Nat.le_refl _)]
  rfl

/-- Unfolding step of `utf8Decode?` when the leading sequence is invalid. -/
theorem utf8Decode_cons_none {b : Nat} {bs : List Nat}
    (h : utf8DecodeOne b bs = none) : utf8Decode? (b :: bs) = none := by
  show utf8DecodeFuel (b :: bs).length (b :: bs) = _
  simp only [List.length_cons, utf8DecodeFuel, h]

/-- ASCII byte strings decode to themselves. -/
theorem utf8Decode_ascii : ∀ bs : List Nat, (∀ b ∈ bs, b < 128) → utf8Decode? bs = some bs := by
  intro bs
  induction bs with
  | nil => intro _; rfl
  | cons b bs ih =>
    intro h
    have hb : b < 128 := h b (List.mem_cons_self b bs)
    have hbs : ∀ x ∈ bs, x < 128 := fun x hx => h x (List.mem_cons_of_mem b hx)
    have hone : utf8DecodeOne b bs = some (b, bs) := by
      unfold utf8DecodeOne
      rw [if_pos hb]
    rw [utf8Decode_cons_some hone, ih hbs]
    rfl

/-- The state of `StatefulCommandCompiler`: `buf` models the contents of the
`BytesIO` object `self.buf`. -/
structure CompilerSt where
  buf : List Nat
deriving DecidableEq, Repr

/-- `StatefulCommandCompiler.is_partial_command`: `bool(self.buf.getvalue())`. -/
def isPartialCommand (s : CompilerSt) : Bool :=
  !s.buf.isEmpty

/-- `StatefulCommandCompiler.reset`: seek to 0 and truncate, i.e. empty buffer. -/
def compilerReset : CompilerSt := ⟨[]⟩

/-- The exceptions `StatefulCommandCompiler.__call__` can raise:
`UnicodeDecodeError` from `.decode('utf8')`, or `SyntaxError` from the
superclass `codeop.CommandCompiler.__call__`. -/
inductive CallExc where
  | decodeError : CallExc
  | syntaxFail : CallExc
deriving DecidableEq, Repr

/-- The external parse-and-compile capability (`codeop.CommandCompiler`
superclass call, out of scope per the spec): given decoded source text it
either raises a syntax error (`Except.error ()`), reports the command
incomplete (`Except.ok none`), or returns a compiled unit
(`Except.ok (some u)`). -/
abbrev CodeParser (α : Type) := List Nat → Except Unit (Option α)

/-- The tail of `StatefulCommandCompiler.__call__` after the buffer writes:
decode the whole buffer contents and hand them to the superclass compiler;
on a complete unit the buffer is reset, otherwise (incomplete, syntax
error, or decode error) the buffer keeps `b`. -/
def compilerCallCore {α : Type} (P : CodeParser α) (b : List Nat) :
    Except CallExc (Option α) × CompilerSt :=
  match utf8Decode? b with
  | none => (Except.error CallExc.decodeError, ⟨b⟩)
  | some code =>
    match P code with
    | Except.error _ => (Except.error CallExc.syntaxFail, ⟨b⟩)
    | Except.ok none => (Except.ok none, ⟨b⟩)
    | Except.ok (some u) => (Except.ok (some u), compilerReset)

/-- `StatefulCommandCompiler.__call__(source)`: write `b'\n'` to the buffer
if a partial command is pending, write `source`, then decode and compile the
buffer's whole contents. -/
def compilerCall {α : Type} (P : CodeParser α) (s : CompilerSt) (source : List Nat) :
    Except CallExc (Option α) × CompilerSt :=
  compilerCallCore P ((if isPartialCommand s then s.buf ++ [10] else s.buf) ++ source)

/-- The buffer contents handed to the parse-and-compile capability by
`compilerCall`: the former buffer, then a line separator exactly when the
buffer was non-empty, then the fed line. -/
theorem compilerCall_buffer (s : CompilerSt) (source : List Nat) :
    (if isPartialCommand s then s.buf ++ [10] else s.buf) ++ source
      = s.buf ++ (if s.buf = [] then source else 10 :: source) := by
  by_cases h : s.buf = []
  · simp [isPartialCommand, h]
  · simp [isPartialCommand, h]

/-- An incomplete answer from the capability preserves the appended buffer. -/
theorem compilerCallCore_pending {α : Type} {P : CodeParser α} {b : List Nat}
    (h : (compilerCallCore P b).1 = Except.ok none) :
    (compilerCallCore P b).2 = ⟨b⟩ := by
  unfold compilerCallCore at h ⊢
  cases hdec : utf8Decode? b with
  | none => simp [hdec] at h
  | some code =>
    simp only [hdec] at h ⊢
    cases hp : P code with
    | error e => simp [hp] at h
    | ok o =>
      cases o with
      | none => simp [hp]
      | some u => simp [hp] at h

/-- A complete unit from the capability resets the buffer. -/
theorem compilerCallCore_complete {α : Type} {P : CodeParser α} {b : List Nat} {u : α}
    (h : (compilerCallCore P b).1 = Except.ok (some u)) :
    (compilerCallCore P b).2 = ⟨[]⟩ := by
  unfold compilerCallCore at h ⊢
  cases hdec : utf8Decode? b with
  | none => simp [hdec] at h
  | some code =>
    simp only [hdec] at h ⊢
    cases hp : P code with
    | error e => simp [hp] at h
    | ok o =>
      cases o with
      | none => simp [hp] at h
      | some u1 => simp [hp, compilerReset]

/-- C1: For every line fed to `StatefulCommandCompiler.__call__`: the line
is appended to the buffer with a line separator inserted first iff the
buffer was non-empty beforehand; the parse-and-compile capability is then
invoked on the whole buffer contents decoded as text; on a complete unit
the buffer is cleared and the unit returned; on an incomplete report the
(appended) buffer is preserved and `none` ("pending") is returned. -/
theorem compiler_feed_spec {α : Type} (P : CodeParser α) (s : CompilerSt)
    (source code : List Nat)
    (hdec : utf8Decode? (s.buf ++ (if s.buf = [] then source else 10 :: source)) = some code) :
    (isPartialCommand s = true ↔ s.buf ≠ [])
    ∧ (P code = Except.ok none →
        compilerCall P s source
          = (Except.ok none, ⟨s.buf ++ (if s.buf = [] then source else 10 :: source)⟩))
    ∧ (∀ u : α, P code = Except.ok (some u) →
        compilerCall P s source = (Except.ok (some u), ⟨[]⟩)) := by
  refine ⟨by simp [isPartialCommand], ?_, ?_⟩
  · intro hp
    unfold compilerCall
    rw [compilerCall_buffer]
    unfold compilerCallCore
    simp only [hdec, hp]
  · intro u hp
    unfold compilerCall
    rw [compilerCall_buffer]
    unfold compilerCallCore
    simp only [hdec, hp]
    rfl

/-- A concrete parse-and-compile capability used to exercise
`compiler_feed_spec`: source `"a"` compiles to unit `0`, everything else is
reported incomplete. -/
def feedWitnessParser : CodeParser Nat := fun code =>
  if code = [97] then Except.ok (some 0) else Except.ok none

theorem compiler_feed_spec_witness :
    compilerCall feedWitnessParser ⟨[]⟩ [97] = (Except.ok (some 0), ⟨[]⟩) :=
  (compiler_feed_spec feedWitnessParser ⟨[]⟩ [97] [97]
    (by decide)).2.2 0 (by decide)

/-- `line.rstrip(b'\n')` in `InteractiveInterpreter.read_command`: drop all
trailing newline bytes. -/
def rstripNl (bs : List Nat) : List Nat :=
  (List.dropWhile (fun b => b == 10) bs.reverse).reverse

/-- The two prompts of `InteractiveInterpreter.write_prompt`:
`sys.ps1` (primary) and `sys.ps2` (continuation). -/
inductive Prompt where
  | primary : Prompt
  | secondary : Prompt
deriving DecidableEq, Repr

/-- `InteractiveInterpreter.write_prompt`: the continuation prompt is shown
iff a partial command is buffered. -/
def promptFor (c : CompilerSt) : Prompt :=
  if isPartialCommand c then Prompt.secondary else Prompt.primary

/-- One iteration of the session loop, seen from the outside: either
`reader.readline()` returned `b''` (lost connection), or it returned a
line, in which case `exec` is the outcome `eval` would produce on a
completed unit (`Except.error ()` a raised exception, `Except.ok (value,
stdout)` a result with its captured output). -/
inductive SessionEvent (V : Type) where
  | eofRead : SessionEvent V
  | lineRead (line : List Nat) (exec : Except Unit (Option V × String)) : SessionEvent V
deriving DecidableEq

/-- Per-session state visible to the loop of
`InteractiveInterpreter.__call__`: the compiler buffer and whether the
writer has been closed. -/
structure SessionSt where
  comp : CompilerSt
  writerClosed : Bool
deriving DecidableEq, Repr

/-- One pass of `handle_one_command` under `__call__`'s exception handling,
as the source behaves on each read line:
* `b''` read: `read_command` raises `ConnectionResetError`, `__call__`
  closes the writer and breaks the loop (result `true` = terminated);
* `SyntaxError` from the compiler: `read_command` catches it,
  `send_exception` resets the compiler, the loop continues;
* `UnicodeDecodeError` from the compiler: uncaught by `read_command`,
  it reaches `__call__`'s generic `except Exception` which prints the
  traceback and continues — the compiler buffer is NOT reset;
* incomplete command: `read_command` returns `None`, loop continues;
* complete unit: `run_command` executes it; a raised exception is caught
  there and `send_exception` resets the compiler; otherwise the output is
  sent; either way the loop continues. -/
def sessionStep {α V : Type} (P : CodeParser α) (ev : SessionEvent V) (s : SessionSt) :
    SessionSt × Bool :=
  match ev with
  | SessionEvent.eofRead => ({ s with writerClosed := true }, true)
  | SessionEvent.lineRead line exec =>
    match compilerCall P s.comp (rstripNl line) with
    | (Except.error CallExc.syntaxFail, _) => ({ s with comp := compilerReset }, false)
    | (Except.error CallExc.decodeError, c) => ({ s with comp := c }, false)
    | (Except.ok none, c) => ({ s with comp := c }, false)
    | (Except.ok (some _), c) =>
      match exec with
      | Except.error _ => ({ s with comp := compilerReset }, false)
      | Except.ok _ => ({ s with comp := c }, false)

/-- The session loop run over a finite prefix of read events: processes
events until one terminates the session; result `true` means the loop was
exited (connection reset), `false` that the session is still looping. -/
def runSession {α V : Type} (P : CodeParser α) :
    List (SessionEvent V) → SessionSt → SessionSt × Bool
  | [], s => (s, false)
  | ev :: evs, s =>
    match sessionStep P ev s with
    | (s1, true) => (s1, true)
    | (s1, false) => runSession P evs s1

/-- `InteractiveInterpreter.send_output(value, stdout)` as the list of
`writer.write` calls it performs: the value's `repr` text plus `'\n'` when
`value is not None`, then the captured stdout when it is non-empty. -/
def send_output {α : Type} (reprF : α → String) (value : Option α) (stdout : String) :
    List String :=
  (match value with
   | some v => [reprF v ++ "\n"]
   | none => [])
  ++ (if stdout ≠ "" then [stdout] else [])

/-- What `_real_exec` awaits: whether execution is offloaded to a worker
(`loop.run_in_executor`) and the bound put on the wait (`asyncio.wait_for`
timeout), if any. -/
structure ExecPlan where
  offloaded : Bool
  waitBound : Option Int
deriving DecidableEq, Repr

/-- `InteractiveInterpreter._real_exec`: plain `eval`, inline, no timeout. -/
def inlineRealExecPlan : ExecPlan := ⟨false, none⟩

/-- `ThreadedInteractiveInterpreter._real_exec`: run `eval` in an executor;
wrap the wait in `asyncio.wait_for` iff `self.command_timeout` is truthy
(non-zero). -/
def threadedRealExecPlan (commandTimeout : Int) : ExecPlan :=
  if commandTimeout ≠ 0 then ⟨true, some commandTimeout⟩ else ⟨true, none⟩

/-- The default of `ThreadedInteractiveInterpreter.__init__`'s
`command_timeout` keyword. -/
def threadedDefaultCommandTimeout : Int := 5

/-- The default of `start_manhole`'s `command_timeout` keyword. -/
def startManholeDefaultCommandTimeout : Int := 5

/-- A line-read pass of the session loop never terminates the session and
never touches the writer's closed flag, whatever the compiler and the
execution do. -/
theorem sessionStep_lineRead_go {α V : Type} (P : CodeParser α) (line : List Nat)
    (exec : Except Unit (Option V × String)) (s : SessionSt) :
    (sessionStep P (SessionEvent.lineRead line exec) s).2 = false
    ∧ (sessionStep P (SessionEvent.lineRead line exec) s).1.writerClosed = s.writerClosed := by
  rcases hcc : compilerCall P s.comp (rstripNl line) with ⟨r, c⟩
  cases r with
  | error e => cases e <;> simp [sessionStep, hcc]
  | ok o =>
    cases o with
    | none => simp [sessionStep, hcc]
    | some u => cases exec <;> simp [sessionStep, hcc]

/-- A run that never reads end-of-stream keeps looping with the writer
untouched. -/
theorem runSession_no_eof {α V : Type} (P : CodeParser α) :
    ∀ evs : List (SessionEvent V), ∀ s : SessionSt,
      (∀ e ∈ evs, e ≠ SessionEvent.eofRead) →
      (runSession P evs s).2 = false
      ∧ (runSession P evs s).1.writerClosed = s.writerClosed := by
  intro evs
  induction evs with
  | nil => intro s _; exact ⟨rfl, rfl⟩
  | cons e evs ih =>
    intro s h
    have he : e ≠ SessionEvent.eofRead := h e (List.mem_cons_self e evs)
    cases e with
    | eofRead => exact absurd rfl he
    | lineRead line exec =>
      rcases hs : sessionStep P (SessionEvent.lineRead line exec) s with ⟨s1, t⟩
      have hstep := sessionStep_lineRead_go P line exec s
      rw [hs] at hstep
      obtain ⟨ht, hw⟩ := hstep
      subst ht
      have htl : ∀ e ∈ evs, e ≠ SessionEvent.eofRead :=
        fun x hx => h x (List.mem_cons_of_mem _ hx)
      have hrec := ih s1 htl
      simp only [runSession, hs]
      exact ⟨hrec.1, by rw [hrec.2, hw]⟩

/-- A run that reads end-of-stream terminates with the writer closed. -/
theorem runSession_eof {α V : Type} (P : CodeParser α) :
    ∀ evs : List (SessionEvent V), ∀ s : SessionSt,
      SessionEvent.eofRead ∈ evs →
      (runSession P evs s).2 = true
      ∧ (runSession P evs s).1.writerClosed = true := by
  intro evs
  induction evs with
  | nil => intro s h; simp at h
  | cons e evs ih =>
    intro s h
    cases e with
    | eofRead => simp [runSession, sessionStep]
    | lineRead line exec =>
      have hmem : SessionEvent.eofRead ∈ evs := by
        rcases List.mem_cons.mp h with h1 | h1
        · exact absurd h1 (by simp)
        · exact h1
      rcases hs : sessionStep P (SessionEvent.lineRead line exec) s with ⟨s1, t⟩
      have hstep := sessionStep_lineRead_go P line exec s
      rw [hs] at hstep
      obtain ⟨ht, -⟩ := hstep
      subst ht
      simp only [runSession, hs]
      exact ih s1 hmem

/-- C7: the session loop terminates only on a zero-byte read: a run whose
events are all line reads — whatever mix of syntax errors, decode errors,
execution failures and successes they produce — leaves the loop running
and the writer open, while a run containing an end-of-stream read
terminates the session with the write side released. -/
theorem session_loop_termination {α V : Type} (P : CodeParser α)
    (evs : List (SessionEvent V)) (s : SessionSt) (hopen : s.writerClosed = false) :
    ((∀ e ∈ evs, e ≠ SessionEvent.eofRead) →
       (runSession P evs s).2 = false ∧ (runSession P evs s).1.writerClosed = false)
    ∧ (SessionEvent.eofRead ∈ evs →
       (runSession P evs s).2 = true ∧ (runSession P evs s).1.writerClosed = true) := by
  constructor
  · intro h
    have hr := runSession_no_eof P evs s h
    exact ⟨hr.1, by rw [hr.2, hopen]⟩
  · intro h
    exact runSession_eof P evs s h

theorem session_loop_termination_witness :
    (runSession feedWitnessParser
        [SessionEvent.lineRead (V := Nat) [97, 10] (Except.error ()),
         SessionEvent.eofRead]
        ⟨⟨[]⟩, false⟩).2 = true
    ∧ (runSession feedWitnessParser
        [SessionEvent.lineRead (V := Nat) [97, 10] (Except.error ()),
         SessionEvent.eofRead]
        ⟨⟨[]⟩, false⟩).1.writerClosed = true :=
  (session_loop_termination feedWitnessParser
    [SessionEvent.lineRead [97, 10] (Except.error ()), SessionEvent.eofRead]
    ⟨⟨[]⟩, false⟩ rfl).2 (by decide)

/-- C2: when the parse-and-compile capability raises a syntax error on a
fed line, `read_command` catches it and `send_exception` resets the
compiler first: afterwards the buffer is empty, `is_partial_command()` is
false, the next prompt is the primary prompt, and the session keeps
running. -/
theorem syntax_failure_clears_buffer {α V : Type} (P : CodeParser α) (s : SessionSt)
    (line : List Nat) (exec : Except Unit (Option V × String))
    (hsyn : (compilerCall P s.comp (rstripNl line)).1 = Except.error CallExc.syntaxFail) :
    (sessionStep P (SessionEvent.lineRead line exec) s).1.comp.buf = []
    ∧ isPartialCommand (sessionStep P (SessionEvent.lineRead line exec) s).1.comp = false
    ∧ promptFor (sessionStep P (SessionEvent.lineRead line exec) s).1.comp = Prompt.primary
    ∧ (sessionStep P (SessionEvent.lineRead line exec) s).2 = false := by
  rcases hcc : compilerCall P s.comp (rstripNl line) with ⟨r, c⟩
  rw [hcc] at hsyn
  simp only at hsyn
  subst hsyn
  simp [sessionStep, hcc, compilerReset, isPartialCommand, promptFor]

/-- A capability that raises a syntax error on everything, exercising
`syntax_failure_clears_buffer`. -/
def syntaxWitnessParser : CodeParser Nat := fun _ => Except.error ()

theorem syntax_failure_clears_buffer_witness :
    (sessionStep syntaxWitnessParser
        (SessionEvent.lineRead (V := Nat) [40, 10] (Except.ok (none, "")))
        ⟨⟨[100]⟩, false⟩).1.comp.buf = []
    ∧ isPartialCommand (sessionStep syntaxWitnessParser
        (SessionEvent.lineRead (V := Nat) [40, 10] (Except.ok (none, "")))
        ⟨⟨[100]⟩, false⟩).1.comp = false
    ∧ promptFor (sessionStep syntaxWitnessParser
        (SessionEvent.lineRead (V := Nat) [40, 10] (Except.ok (none, "")))
        ⟨⟨[100]⟩, false⟩).1.comp = Prompt.primary
    ∧ (sessionStep syntaxWitnessParser
        (SessionEvent.lineRead (V := Nat) [40, 10] (Except.ok (none, "")))
        ⟨⟨[100]⟩, false⟩).2 = false :=
  syntax_failure_clears_buffer syntaxWitnessParser ⟨⟨[100]⟩, false⟩ [40, 10]
    (Except.ok (none, "")) (by decide)

/-- C9: if the appended buffer is not valid UTF-8, the accumulator raises a
decode error, not a syntax error: the session does not take the
`SyntaxError` path, the undecodable bytes stay buffered (no reset), and
the failure is absorbed by the loop's generic handler, which resumes
without touching the writer. -/
theorem decode_failure_keeps_buffer {α V : Type} (P : CodeParser α) (s : SessionSt)
    (line : List Nat) (exec : Except Unit (Option V × String))
    (hdec : utf8Decode?
        ((if isPartialCommand s.comp then s.comp.buf ++ [10] else s.comp.buf) ++ rstripNl line)
      = none) :
    compilerCall P s.comp (rstripNl line)
      = (Except.error CallExc.decodeError,
          ⟨(if isPartialCommand s.comp then s.comp.buf ++ [10] else s.comp.buf) ++ rstripNl line⟩)
    ∧ CallExc.decodeError ≠ CallExc.syntaxFail
    ∧ (sessionStep P (SessionEvent.lineRead line exec) s).1.comp
        = ⟨(if isPartialCommand s.comp then s.comp.buf ++ [10] else s.comp.buf) ++ rstripNl line⟩
    ∧ (sessionStep P (SessionEvent.lineRead line exec) s).2 = false
    ∧ (sessionStep P (SessionEvent.lineRead line exec) s).1.writerClosed = s.writerClosed := by
  have hcc : compilerCall P s.comp (rstripNl line)
      = (Except.error CallExc.decodeError,
          ⟨(if isPartialCommand s.comp then s.comp.buf ++ [10] else s.comp.buf) ++ rstripNl line⟩) := by
    unfold compilerCall compilerCallCore
    simp only [hdec]
  refine ⟨hcc, by decide, ?_, ?_, ?_⟩ <;> simp [sessionStep, hcc]

theorem decode_failure_keeps_buffer_witness :
    compilerCall syntaxWitnessParser ⟨[]⟩ (rstripNl [255])
      = (Except.error CallExc.decodeError, ⟨[255]⟩)
    ∧ (sessionStep syntaxWitnessParser
        (SessionEvent.lineRead (V := Nat) [255] (Except.ok (none, "")))
        ⟨⟨[]⟩, false⟩).1.comp = ⟨[255]⟩
    ∧ (sessionStep syntaxWitnessParser
        (SessionEvent.lineRead (V := Nat) [255] (Except.ok (none, "")))
        ⟨⟨[]⟩, false⟩).2 = false := by
  have h := decode_failure_keeps_buffer syntaxWitnessParser ⟨⟨[]⟩, false⟩ [255]
    (Except.ok ((none : Option Nat), "")) (by decide)
  exact ⟨h.1, h.2.2.1, h.2.2.2.1⟩

/-- C5: `send_output` writes the repr text of the value followed by a line
terminator iff a value was produced, then the captured stdout verbatim iff
it is non-empty; nothing else is written, and with no value and empty
stdout nothing at all is written. -/
theorem send_output_framing {α : Type} (reprF : α → String) (value : Option α)
    (stdout : String) :
    send_output reprF value stdout
      = (value.map (fun v => reprF v ++ "\n")).toList
          ++ (if stdout = "" then [] else [stdout])
    ∧ (send_output reprF value stdout = [] ↔ value = none ∧ stdout = "") := by
  constructor
  · cases value <;> by_cases h : stdout = "" <;> simp [send_output, h]
  · cases value <;> by_cases h : stdout = "" <;> simp [send_output, h]

/-- C6: under the threaded strategy the wait on the execution is bounded by
the configured `command_timeout` exactly when it is non-zero (zero means
no bound), the default is 5, and the inline strategy never applies a
timeout. -/
theorem exec_timeout_policy :
    (∀ t : Int, threadedRealExecPlan t
        = ⟨true, if t = 0 then none else some t⟩)
    ∧ threadedRealExecPlan threadedDefaultCommandTimeout = ⟨true, some 5⟩
    ∧ threadedDefaultCommandTimeout = 5
    ∧ startManholeDefaultCommandTimeout = 5
    ∧ inlineRealExecPlan = ⟨false, none⟩ := by
  refine ⟨?_, by decide, rfl, rfl, rfl⟩
  intro t
  by_cases h : t = 0 <;> simp [threadedRealExecPlan, h]

/-- A sequence of `StatefulCommandCompiler.__call__` invocations, one per
fed line, collecting every returned result and the final compiler state. -/
def feedSteps {α : Type} (P : CodeParser α) :
    List (List Nat) → CompilerSt → List (Except CallExc (Option α)) × CompilerSt
  | [], s => ([], s)
  | l :: ls, s =>
    ((compilerCall P s l).1 :: (feedSteps P ls (compilerCall P s l).2).1,
     (feedSteps P ls (compilerCall P s l).2).2)

/-- The bytes the buffer accumulates past its first line: a line separator
before each further line. -/
def tailJoinNl : List (List Nat) → List Nat
  | [] => []
  | l :: ls => 10 :: (l ++ tailJoinNl ls)

/-- Lines joined by single line separators: the concatenation whose split
at line feeds gives back the lines. -/
def joinNl : List (List Nat) → List Nat
  | [] => []
  | l :: ls => l ++ tailJoinNl ls

theorem tailJoinNl_append_singleton :
    ∀ ls : List (List Nat), ∀ x : List Nat,
      tailJoinNl (ls ++ [x]) = tailJoinNl ls ++ 10 :: x := by
  intro ls x
  induction ls with
  | nil => simp [tailJoinNl]
  | cons l ls ih => simp [tailJoinNl, ih]

theorem feedSteps_append {α : Type} (P : CodeParser α) :
    ∀ xs ys : List (List Nat), ∀ s : CompilerSt,
      feedSteps P (xs ++ ys) s
        = ((feedSteps P xs s).1 ++ (feedSteps P ys (feedSteps P xs s).2).1,
           (feedSteps P ys (feedSteps P xs s).2).2) := by
  intro xs
  induction xs with
  | nil => intro ys s; simp [feedSteps]
  | cons x xs ih => intro ys s; simp [feedSteps, ih]

/-- Feeding lines that all come back "pending" accumulates exactly the
lines joined by separators after a non-empty buffer. -/
theorem feedSteps_pending_buf {α : Type} (P : CodeParser α) :
    ∀ ls : List (List Nat), ∀ s : CompilerSt, s.buf ≠ [] →
      (∀ r ∈ (feedSteps P ls s).1, r = Except.ok none) →
      (feedSteps P ls s).2.buf = s.buf ++ tailJoinNl ls := by
  intro ls
  induction ls with
  | nil => intro s hne _; simp [feedSteps, tailJoinNl]
  | cons l ls ih =>
    intro s hne hp
    have hr : (compilerCall P s l).1 = Except.ok none := by
      apply hp
      simp [feedSteps]
    have hbuf : (compilerCall P s l).2
        = ⟨(if isPartialCommand s then s.buf ++ [10] else s.buf) ++ l⟩ :=
      compilerCallCore_pending hr
    have hisp : isPartialCommand s = true := by
      simp [isPartialCommand, hne]
    rw [hisp, if_pos rfl] at hbuf
    have htl : ∀ r ∈ (feedSteps P ls (compilerCall P s l).2).1, r = Except.ok none := by
      intro r hrr
      apply hp
      simp [feedSteps]
      right
      exact hrr
    have hrec := ih (compilerCall P s l).2 (by rw [hbuf]; simp) htl
    show (feedSteps P ls (compilerCall P s l).2).2.buf = _
    rw [hrec, hbuf]
    simp [tailJoinNl]

/-- A capability that deems every buffer a complete unit and returns the
decoded text itself as the unit. -/
def echoParser : CodeParser (List Nat) := fun code => Except.ok (some code)

/-- C3 (counterexample): under the capability that completes every line,
feeding the text `"a\nb"` as a single call yields the unit `"a\nb"` with an
empty buffer, while feeding it line by line yields the two distinct units
`"a"` and `"b"` — not the same command unit, refuting split-invariance as
universally stated. -/
theorem split_invariance_counterexample :
    (compilerCall echoParser ⟨[]⟩ [97, 10, 98]).1 = Except.ok (some [97, 10, 98])
    ∧ (feedSteps echoParser [[97], [98]] ⟨[]⟩).1
        = [Except.ok (some [97]), Except.ok (some [98])]
    ∧ [97, 10, 98] ≠ [97] := by
  decide

/-- C3 (amended): for lines whose first line is non-empty, if feeding them
one call per line reports "pending" on every line but the last, then the
line-by-line run and the single call on the lines joined by line
separators produce the same final result and the same final compiler
state; in particular, when that result is a complete unit both runs end
with an empty buffer. -/
theorem split_invariance_amended {α : Type} (P : CodeParser α)
    (first : List Nat) (rest : List (List Nat)) (hne : first ≠ [])
    (hpend : ∀ r ∈ (feedSteps P (List.dropLast (first :: rest)) ⟨[]⟩).1,
        r = Except.ok none) :
    (feedSteps P (first :: rest) ⟨[]⟩).2 = (compilerCall P ⟨[]⟩ (joinNl (first :: rest))).2
    ∧ (feedSteps P (first :: rest) ⟨[]⟩).1.getLast?
        = some (compilerCall P ⟨[]⟩ (joinNl (first :: rest))).1
    ∧ (∀ u : α, (compilerCall P ⟨[]⟩ (joinNl (first :: rest))).1 = Except.ok (some u) →
        (compilerCall P ⟨[]⟩ (joinNl (first :: rest))).2.buf = []
        ∧ (feedSteps P (first :: rest) ⟨[]⟩).2.buf = []) := by
  have hjoin1 : joinNl [first] = first := by simp [joinNl, tailJoinNl]
  rcases List.eq_nil_or_concat rest with rfl | ⟨mid, last, hrest⟩
  · refine ⟨?_, ?_, ?_⟩
    · simp [feedSteps, hjoin1]
    · simp [feedSteps, hjoin1]
    · intro u hu
      rw [hjoin1] at hu
      have h2 : (compilerCall P ⟨[]⟩ first).2 = ⟨[]⟩ := compilerCallCore_complete hu
      constructor
      · rw [hjoin1, h2]
      · simp [feedSteps, hjoin1, h2]
  · rw [List.concat_eq_append] at hrest
    subst hrest
    have hsplit : first :: (mid ++ [last]) = (first :: mid) ++ [last] := by simp
    have hdrop : List.dropLast (first :: (mid ++ [last])) = first :: mid := by
      rw [hsplit]
      exact List.dropLast_concat
    rw [hdrop] at hpend
    -- the head feed is pending and leaves buffer `first`
    have hr0 : (compilerCall P ⟨[]⟩ first).1 = Except.ok none := by
      apply hpend
      simp [feedSteps]
    have hbuf0 : (compilerCall P ⟨[]⟩ first).2
        = ⟨(if isPartialCommand ⟨[]⟩ then ([] : List Nat) ++ [10] else []) ++ first⟩ :=
      compilerCallCore_pending hr0
    have hbuf0' : (compilerCall P ⟨[]⟩ first).2 = ⟨first⟩ := by
      rw [hbuf0]
      simp [isPartialCommand]
    -- the middle feeds are pending and accumulate the joined prefix
    have hmid : ∀ r ∈ (feedSteps P mid (compilerCall P ⟨[]⟩ first).2).1,
        r = Except.ok none := by
      intro r hrr
      apply hpend
      simp [feedSteps]
      right
      exact hrr
    have hmidbuf : (feedSteps P mid (compilerCall P ⟨[]⟩ first).2).2.buf
        = first ++ tailJoinNl mid := by
      have := feedSteps_pending_buf P mid (compilerCall P ⟨[]⟩ first).2
        (by rw [hbuf0']; exact hne) hmid
      rw [this, hbuf0']
    -- both the last feed and the single call hand the same bytes to the core
    have hfull : (if isPartialCommand (feedSteps P mid (compilerCall P ⟨[]⟩ first).2).2
          then (feedSteps P mid (compilerCall P ⟨[]⟩ first).2).2.buf ++ [10]
          else (feedSteps P mid (compilerCall P ⟨[]⟩ first).2).2.buf) ++ last
        = joinNl (first :: (mid ++ [last])) := by
      have hne2 : (feedSteps P mid (compilerCall P ⟨[]⟩ first).2).2.buf ≠ [] := by
        rw [hmidbuf]
        simp [hne]
      have hisp : isPartialCommand (feedSteps P mid (compilerCall P ⟨[]⟩ first).2).2 = true := by
        simp [isPartialCommand, hne2]
      rw [hisp, if_pos rfl, hmidbuf]
      simp [joinNl, tailJoinNl_append_singleton]
    have hlastCall : compilerCall P (feedSteps P mid (compilerCall P ⟨[]⟩ first).2).2 last
        = compilerCall P ⟨[]⟩ (joinNl (first :: (mid ++ [last]))) := by
      show compilerCallCore P
          ((if isPartialCommand (feedSteps P mid (compilerCall P ⟨[]⟩ first).2).2
            then (feedSteps P mid (compilerCall P ⟨[]⟩ first).2).2.buf ++ [10]
            else (feedSteps P mid (compilerCall P ⟨[]⟩ first).2).2.buf) ++ last)
        = compilerCallCore P
          ((if isPartialCommand (⟨[]⟩ : CompilerSt)
            then (⟨[]⟩ : CompilerSt).buf ++ [10] else (⟨[]⟩ : CompilerSt).buf)
            ++ joinNl (first :: (mid ++ [last])))
      rw [hfull]
      have hr : (if isPartialCommand (⟨[]⟩ : CompilerSt)
            then (⟨[]⟩ : CompilerSt).buf ++ [10] else (⟨[]⟩ : CompilerSt).buf)
            ++ joinNl (first :: (mid ++ [last])) = joinNl (first :: (mid ++ [last])) := by
        simp [isPartialCommand]
      rw [hr]
    -- assemble the whole multi-line run
    have hrun : feedSteps P (first :: (mid ++ [last])) ⟨[]⟩
        = ((feedSteps P (first :: mid) ⟨[]⟩).1
             ++ [(compilerCall P ⟨[]⟩ (joinNl (first :: (mid ++ [last])))).1],
           (compilerCall P ⟨[]⟩ (joinNl (first :: (mid ++ [last])))).2) := by
      rw [hsplit, feedSteps_append]
      have hA2 : (feedSteps P (first :: mid) ⟨[]⟩).2
          = (feedSteps P mid (compilerCall P ⟨[]⟩ first).2).2 := by
        simp [feedSteps]
      rw [hA2]
      simp [feedSteps, hlastCall]
    refine ⟨?_, ?_, ?_⟩
    · rw [hrun]
    · rw [hrun]
      simp [List.getLast?_concat]
    · intro u hu
      have h2 : (compilerCall P ⟨[]⟩ (joinNl (first :: (mid ++ [last])))).2 = ⟨[]⟩ :=
        compilerCallCore_complete hu
      refine ⟨by rw [h2], ?_⟩
      rw [hrun]
      simp [h2]

/-- A capability that completes exactly the two joined lines `"d\ne"` (as
unit `7`) and reports anything else incomplete, exercising
`split_invariance_amended`. -/
def splitWitnessParser : CodeParser Nat := fun code =>
  if code = [100, 10, 101] then Except.ok (some 7) else Except.ok none

theorem split_invariance_amended_witness :
    (feedSteps splitWitnessParser [[100], [101]] ⟨[]⟩).2
        = (compilerCall splitWitnessParser ⟨[]⟩ (joinNl [[100], [101]])).2
    ∧ (feedSteps splitWitnessParser [[100], [101]] ⟨[]⟩).1.getLast?
        = some (compilerCall splitWitnessParser ⟨[]⟩ (joinNl [[100], [101]])).1 := by
  have h := split_invariance_amended splitWitnessParser [100] [[101]]
    (by decide) (by decide)
  exact ⟨h.1, h.2.1⟩

/-- A heap address: the identity of a Python object. -/
abbrev Addr := Nat

/-- The identity of a Python value object held in a namespace. -/
abbrev ObjId := Nat

/-- A Python dict used as a namespace: an association list from identifier
to the identity of the bound value object. -/
abbrev PyDict := List (String × ObjId)

/-- The live dict objects, by address — this is what lets the model
distinguish "the very same mapping object" from "an equal copy". -/
abbrev Store := List (Addr × PyDict)

def dictGet : PyDict → String → Option ObjId
  | [], _ => none
  | (k1, v1) :: d, k => if k1 = k then some v1 else dictGet d k

def dictSet : PyDict → String → ObjId → PyDict
  | [], k, v => [(k, v)]
  | (k1, v1) :: d, k, v => if k1 = k then (k, v) :: d else (k1, v1) :: dictSet d k v

def storeGet : Store → Addr → Option PyDict
  | [], _ => none
  | (a1, d1) :: st, a => if a1 = a then some d1 else storeGet st a

def storeSet : Store → Addr → PyDict → Store
  | [], a, d => [(a, d)]
  | (a1, d1) :: st, a, d => if a1 = a then (a, d) :: st else (a1, d1) :: storeSet st a d

/-- An address not yet used by any object in the store. -/
def freshAddr (st : Store) : Addr :=
  (st.map Prod.fst).foldr Nat.max 0 + 1

/-- `InterpreterFactory`: holds (a reference to) the configured namespace
dict (`self.namespace = namespace or {}`) and the `shared` flag. -/
structure InterpFactory where
  nsAddr : Addr
  shared : Bool
deriving DecidableEq, Repr

/-- `InterpreterFactory.__call__`: the created interpreter receives
`self.namespace if self.shared else dict(self.namespace)` — the factory's
own dict object in shared mode, a fresh shallow copy of its current
contents in isolated mode.  Returns the namespace address handed to the
new session and the store (extended by the copy in isolated mode). -/
def factoryCall (f : InterpFactory) (st : Store) : Addr × Store :=
  if f.shared then
    (f.nsAddr, st)
  else
    (freshAddr st, storeSet st (freshAddr st) ((storeGet st f.nsAddr).getD []))

/-- A top-level assignment `k = v` executed by `eval` against the
namespace dict at `a`: mutates that dict object in place. -/
def assignVar (st : Store) (a : Addr) (k : String) (v : ObjId) : Store :=
  match storeGet st a with
  | some d => storeSet st a (dictSet d k v)
  | none => st

/-- A top-level name lookup executed against the namespace dict at `a`. -/
def getVar (st : Store) (a : Addr) (k : String) : Option ObjId :=
  match storeGet st a with
  | some d => dictGet d k
  | none => none

theorem storeGet_storeSet_self : ∀ st : Store, ∀ a : Addr, ∀ d : PyDict,
    storeGet (storeSet st a d) a = some d := by
  intro st
  induction st with
  | nil => intro a d; simp [storeSet, storeGet]
  | cons p st ih =>
    intro a d
    obtain ⟨a1, d1⟩ := p
    by_cases h : a1 = a
    · simp [storeSet, storeGet, h]
    · simp [storeSet, storeGet, h, ih]

theorem storeGet_storeSet_other : ∀ st : Store, ∀ a b : Addr, ∀ d : PyDict, a ≠ b →
    storeGet (storeSet st a d) b = storeGet st b := by
  intro st
  induction st with
  | nil => intro a b d hne; simp [storeSet, storeGet, hne]
  | cons p st ih =>
    intro a b d hne
    obtain ⟨a1, d1⟩ := p
    by_cases h : a1 = a
    · subst h
      simp [storeSet, storeGet, hne]
    · simp [storeSet, storeGet, h, ih _ _ _ hne]

theorem dictGet_dictSet_self : ∀ d : PyDict, ∀ k : String, ∀ v : ObjId,
    dictGet (dictSet d k v) k = some v := by
  intro d
  induction d with
  | nil => intro k v; simp [dictSet, dictGet]
  | cons p d ih =>
    intro k v
    obtain ⟨k1, v1⟩ := p
    by_cases h : k1 = k
    · simp [dictSet, dictGet, h]
    · simp [dictSet, dictGet, h, ih]

theorem storeGet_lt_freshAddr : ∀ st : Store, ∀ a : Addr, ∀ d : PyDict,
    storeGet st a = some d → a < freshAddr st := by
  intro st
  induction st with
  | nil => intro a d h; simp [storeGet] at h
  | cons p st ih =>
    intro a d h
    obtain ⟨a1, d1⟩ := p
    unfold storeGet at h
    unfold freshAddr at ih ⊢
    simp only [List.map_cons, List.foldr_cons]
    have hmaxl := Nat.le_max_left a1 ((st.map Prod.fst).foldr Nat.max 0)
    have hmaxr := Nat.le_max_right a1 ((st.map Prod.fst).foldr Nat.max 0)
    by_cases he : a1 = a
    · subst he
      exact Nat.lt_succ_of_le hmaxl
    · rw [if_neg he] at h
      have ha := ih a d h
      exact Nat.lt_succ_of_le (le_trans (Nat.le_of_lt_succ ha) hmaxr)

/-- Reading a present namespace through `getVar` is a dict lookup. -/
theorem getVar_eq (st : Store) (a : Addr) (k : String) (d : PyDict)
    (h : storeGet st a = some d) : getVar st a k = dictGet d k := by
  unfold getVar
  rw [h]

/-- Assigning into a present namespace updates that dict object in place. -/
theorem assignVar_eq (st : Store) (a : Addr) (k : String) (v : ObjId) (d : PyDict)
    (h : storeGet st a = some d) : assignVar st a k v = storeSet st a (dictSet d k v) := by
  unfold assignVar
  rw [h]

/-- The layout after two isolated-mode sessions are created: each gets a
fresh address holding the template's contents; the template and both
copies are three distinct dict objects. -/
theorem isolated_layout (f : InterpFactory) (st : Store) (tmpl : PyDict)
    (hsh : f.shared = false) (htmpl : storeGet st f.nsAddr = some tmpl) :
    (factoryCall f st).1 = freshAddr st
    ∧ (factoryCall f st).2 = storeSet st (freshAddr st) tmpl
    ∧ storeGet (factoryCall f st).2 (factoryCall f st).1 = some tmpl
    ∧ storeGet (factoryCall f st).2 f.nsAddr = some tmpl
    ∧ f.nsAddr ≠ (factoryCall f st).1 := by
  have hns : f.nsAddr < freshAddr st := storeGet_lt_freshAddr st f.nsAddr tmpl htmpl
  have hcall : factoryCall f st = (freshAddr st, storeSet st (freshAddr st) tmpl) := by
    unfold factoryCall
    rw [hsh]
    simp [htmpl]
  refine ⟨by rw [hcall], by rw [hcall], ?_, ?_, ?_⟩
  · rw [hcall]
    exact storeGet_storeSet_self st (freshAddr st) tmpl
  · rw [hcall]
    rw [storeGet_storeSet_other st (freshAddr st) f.nsAddr tmpl (ne_of_gt hns)]
    exact htmpl
  · rw [hcall]
    exact ne_of_lt hns

/-- C4: in shared mode every session receives the factory's one namespace
dict (so a binding executed through one session is read back through
another); in isolated mode each session receives a fresh dict seeded from
the template, and a name absent from the template that one session binds
is not found through the other session's namespace. -/
theorem namespace_sharing_modes (f : InterpFactory) (st : Store) (tmpl : PyDict)
    (htmpl : storeGet st f.nsAddr = some tmpl) :
    (f.shared = true →
      (factoryCall f st).1 = f.nsAddr
      ∧ (factoryCall f (factoryCall f st).2).1 = f.nsAddr
      ∧ (factoryCall f st).2 = st
      ∧ (∀ k : String, ∀ v : ObjId,
          getVar
            (assignVar (factoryCall f (factoryCall f st).2).2 (factoryCall f st).1 k v)
            (factoryCall f (factoryCall f st).2).1 k = some v))
    ∧ (f.shared = false →
      (factoryCall f st).1 ≠ (factoryCall f (factoryCall f st).2).1
      ∧ (∀ k : String, ∀ v : ObjId, dictGet tmpl k = none →
          getVar
            (assignVar (factoryCall f (factoryCall f st).2).2 (factoryCall f st).1 k v)
            (factoryCall f (factoryCall f st).2).1 k = none)) := by
  constructor
  · intro hsh
    have hcall : factoryCall f st = (f.nsAddr, st) := by
      unfold factoryCall
      rw [hsh]
      simp
    have hpair1 : (factoryCall f st).1 = f.nsAddr := by rw [hcall]
    have hpair2 : (factoryCall f st).2 = st := by rw [hcall]
    refine ⟨hpair1, by rw [hpair2, hpair1], hpair2, ?_⟩
    intro k v
    rw [hpair2, hpair2, hpair1]
    rw [assignVar_eq _ _ _ _ tmpl htmpl]
    rw [getVar_eq _ _ _ (dictSet tmpl k v) (storeGet_storeSet_self st f.nsAddr (dictSet tmpl k v))]
    exact dictGet_dictSet_self tmpl k v
  · intro hsh
    obtain ⟨ha1, hst1, hget1, hgetns1, hne1⟩ := isolated_layout f st tmpl hsh htmpl
    obtain ⟨ha2, hst2, hget2, hgetns2, hne2⟩ :=
      isolated_layout f (factoryCall f st).2 tmpl hsh hgetns1
    have hlt : (factoryCall f st).1 < (factoryCall f (factoryCall f st).2).1 := by
      rw [ha2]
      exact storeGet_lt_freshAddr (factoryCall f st).2 (factoryCall f st).1 tmpl hget1
    constructor
    · exact ne_of_lt hlt
    · intro k v hk
      have hfne : freshAddr (factoryCall f st).2 ≠ (factoryCall f st).1 := by
        rw [← ha2]
        exact ne_of_gt hlt
      have hget1' : storeGet (factoryCall f (factoryCall f st).2).2 (factoryCall f st).1
          = some tmpl := by
        rw [hst2, storeGet_storeSet_other _ _ _ _ hfne]
        exact hget1
      rw [assignVar_eq _ _ _ _ tmpl hget1']
      have hB : storeGet
          (storeSet (factoryCall f (factoryCall f st).2).2 (factoryCall f st).1
            (dictSet tmpl k v))
          (factoryCall f (factoryCall f st).2).1 = some tmpl := by
        rw [storeGet_storeSet_other _ _ _ _ (ne_of_lt hlt)]
        exact hget2
      rw [getVar_eq _ _ _ tmpl hB]
      exact hk

theorem namespace_sharing_modes_witness :
    getVar
      (assignVar
        (factoryCall ⟨0, true⟩ (factoryCall ⟨0, true⟩ [(0, [("y", 3)])]).2).2
        (factoryCall ⟨0, true⟩ [(0, [("y", 3)])]).1 "x" 5)
      (factoryCall ⟨0, true⟩ (factoryCall ⟨0, true⟩ [(0, [("y", 3)])]).2).1 "x" = some 5 :=
  ((namespace_sharing_modes ⟨0, true⟩ [(0, [("y", 3)])] [("y", 3)]
    (by decide)).1 rfl).2.2.2 "x" 5

/-- C10: in isolated mode the per-session namespace is a shallow copy of
the template: right after creation it holds exactly the template's
bindings (each key mapped to the very same value object); then adding or
rebinding a top-level name through one session leaves both the template
dict and another session's dict unchanged. -/
theorem isolated_shallow_copy (f : InterpFactory) (st : Store) (tmpl : PyDict)
    (hsh : f.shared = false) (htmpl : storeGet st f.nsAddr = some tmpl) :
    storeGet (factoryCall f st).2 (factoryCall f st).1 = some tmpl
    ∧ (∀ k : String, getVar (factoryCall f st).2 (factoryCall f st).1 k = dictGet tmpl k)
    ∧ (∀ k : String, ∀ v : ObjId,
        storeGet
            (assignVar (factoryCall f (factoryCall f st).2).2 (factoryCall f st).1 k v)
            f.nsAddr = some tmpl
        ∧ storeGet
            (assignVar (factoryCall f (factoryCall f st).2).2 (factoryCall f st).1 k v)
            (factoryCall f (factoryCall f st).2).1 = some tmpl) := by
  obtain ⟨ha1, hst1, hget1, hgetns1, hne1⟩ := isolated_layout f st tmpl hsh htmpl
  obtain ⟨ha2, hst2, hget2, hgetns2, hne2⟩ :=
    isolated_layout f (factoryCall f st).2 tmpl hsh hgetns1
  have hlt : (factoryCall f st).1 < (factoryCall f (factoryCall f st).2).1 := by
    rw [ha2]
    exact storeGet_lt_freshAddr (factoryCall f st).2 (factoryCall f st).1 tmpl hget1
  have hfne : freshAddr (factoryCall f st).2 ≠ (factoryCall f st).1 := by
    rw [← ha2]
    exact ne_of_gt hlt
  have hget1' : storeGet (factoryCall f (factoryCall f st).2).2 (factoryCall f st).1
      = some tmpl := by
    rw [hst2, storeGet_storeSet_other _ _ _ _ hfne]
    exact hget1
  refine ⟨hget1, ?_, ?_⟩
  · intro k
    exact getVar_eq _ _ _ tmpl hget1
  · intro k v
    rw [assignVar_eq _ _ _ _ tmpl hget1']
    constructor
    · rw [storeGet_storeSet_other _ _ _ _ (Ne.symm hne1)]
      exact hgetns2
    · rw [storeGet_storeSet_other _ _ _ _ (ne_of_lt hlt)]
      exact hget2

theorem isolated_shallow_copy_witness :
    storeGet (factoryCall ⟨0, false⟩ [(0, [("y", 3)])]).2
        (factoryCall ⟨0, false⟩ [(0, [("y", 3)])]).1 = some [("y", 3)]
    ∧ storeGet
        (assignVar
          (factoryCall ⟨0, false⟩ (factoryCall ⟨0, false⟩ [(0, [("y", 3)])]).2).2
          (factoryCall ⟨0, false⟩ [(0, [("y", 3)])]).1 "x" 5) 0 = some [("y", 3)] := by
  have h := isolated_shallow_copy ⟨0, false⟩ [(0, [("y", 3)])] [("y", 3)] rfl (by decide)
  exact ⟨h.1, (h.2.2 "x" 5).1⟩

/-- The listeners `start_manhole` requests: a UNIX-socket server
(`asyncio.start_unix_server`) and/or a TCP server (`asyncio.start_server`). -/
inductive Listener where
  | unixSock (path : String) : Listener
  | tcpSock (host : String) (port : Int) : Listener
deriving DecidableEq, Repr

/-- The configuration logic of `start_manhole`: raise
`ValueError('At least one of port or path must be given')` when
`(port, path) == (None, None)`; otherwise request a UNIX listener `if
path:` (Python truthiness: skipped for `None` and for the empty string)
and a TCP listener `if port is not None:`. -/
def startManholeListeners (host : String) (port : Option Int) (path : Option String) :
    Except String (List Listener) :=
  match port, path with
  | none, none => Except.error "At least one of port or path must be given"
  | _, _ =>
    Except.ok
      ((match path with
        | some p => if p ≠ "" then [Listener.unixSock p] else []
        | none => [])
       ++ (match port with
           | some pt => [Listener.tcpSock host pt]
           | none => []))

/-- C8 (counterexample): with no port and the empty string as path, the
path is given (not `None`), no configuration error is raised, yet no
listener at all is requested — refuting "a listener is requested for each
given address". -/
theorem start_manhole_empty_path_counterexample :
    startManholeListeners "127.0.0.1" none (some "") = Except.ok ([] : List Listener) := by
  decide

/-- C8 (amended): with neither port nor path the configuration error is
raised before any listener is requested; otherwise no error is raised and
a listener is requested for the path when it is given and non-empty and
for the port whenever it is given (a given empty path yields no
listener). -/
theorem start_manhole_config_amended (host : String) (port : Option Int)
    (path : Option String) :
    (port = none ∧ path = none →
      startManholeListeners host port path
        = Except.error "At least one of port or path must be given")
    ∧ (¬(port = none ∧ path = none) →
      startManholeListeners host port path
        = Except.ok
            ((match path with
              | some p => if p ≠ "" then [Listener.unixSock p] else []
              | none => [])
             ++ (match port with
                 | some pt => [Listener.tcpSock host pt]
                 | none => []))) := by
  constructor
  · rintro ⟨rfl, rfl⟩
    rfl
  · intro h
    cases port with
    | none =>
      cases path with
      | none => exact absurd ⟨rfl, rfl⟩ h
      | some p => rfl
    | some pt => cases path <;> rfl

theorem start_manhole_config_amended_witness :
    startManholeListeners "127.0.0.1" (some 7777) (some "/tmp/sock")
      = Except.ok [Listener.unixSock "/tmp/sock", Listener.tcpSock "127.0.0.1" 7777] := by
  have h := (start_manhole_config_amended "127.0.0.1" (some 7777) (some "/tmp/sock")).2
    (by simp)
  rw [h]
  decide

end Aiomanhole
